import Mathlib

/-!
Verification of the chunked playback position tracker in
`static/js/studio/player.js` (OpenVox studio UI).

The player keeps an ordered list of ready chunks, a current chunk index and
an in-chunk offset (the media element's `currentTime`), and derives
episode-level elapsed time and total duration by prefix sums of chunk
durations.  JavaScript numbers are modelled by exact rationals (`ℚ`);
assignments to `audio.currentTime` are modelled as clamped to
`[0, duration]`, which is the HTMLMediaElement seeking behaviour, with the
loaded chunk's media duration assumed equal to its `duration_secs`
metadata.
-/

namespace OpenVox

/-- A chunk record as delivered by the backend and consumed by the player:
`{ chunk_index, duration_secs, status }` (the `text` field plays no role in
position tracking). -/
structure Chunk where
  chunk_index : Nat
  duration_secs : ℚ
  status : String
deriving DecidableEq, Repr

/-- `chunks = (episode.chunks || []).filter(c => c.status === 'ready')`
(player.js line 29). -/
def readyChunks (raw : List Chunk) : List Chunk :=
  raw.filter (fun c => c.status == "ready")

/-- `chunks.reduce((sum, c) => sum + (c.duration_secs || 0), 0)`
(player.js line 37). -/
def totalEpisodeDuration (chunks : List Chunk) : ℚ :=
  chunks.foldl (fun sum c => sum + c.duration_secs) 0

/-- `calculateEpisodeTime(chunkIndex)` (player.js lines 85-93): sum of the
durations of the chunks whose `chunk_index` is strictly below the given
index. -/
def calculateEpisodeTime (chunks : List Chunk) (chunkIndex : Nat) : ℚ :=
  chunks.foldl
    (fun time c => if c.chunk_index < chunkIndex then time + c.duration_secs else time) 0

/-- JavaScript `Array.prototype.findIndex`, with `none` standing for the
sentinel `-1`. -/
def findIndex (p : Chunk → Bool) : List Chunk → Option Nat
  | [] => none
  | c :: rest => if p c then some 0 else (findIndex p rest).map (· + 1)

/-- `chunks.find(c => c.chunk_index === chunkIndex)`. -/
def findChunk (chunks : List Chunk) (chunkIndex : Nat) : Option Chunk :=
  chunks.find? (fun c => c.chunk_index == chunkIndex)

/-- Assigning `x` to `audio.currentTime` on media of duration `dur`: the
media element clamps the seek target to `[0, dur]`. -/
def clampTime (x dur : ℚ) : ℚ := max 0 (min dur x)

/-- The module-level mutable player state that the tracker operations act
on: `chunks`, `currentChunkIndex`, the in-chunk offset
(`audio.currentTime`) and the `totalEpisodeDuration` variable. -/
structure PlayerState where
  chunks : List Chunk
  currentChunkIndex : Nat
  offset : ℚ
  totalVar : ℚ
deriving DecidableEq, Repr

/-- Duration of the currently loaded chunk (`audio.duration || 0`): the
`duration_secs` of the first chunk matching `currentChunkIndex`, or `0`
when none matches. -/
def currentChunkDuration (s : PlayerState) : ℚ :=
  ((findChunk s.chunks s.currentChunkIndex).map (·.duration_secs)).getD 0

/-- `currentEpisodeTime = chunkStartTime + audio.currentTime` as recomputed
by `onTimeUpdate` (player.js lines 358-360). -/
def episodeTimeOf (s : PlayerState) : ℚ :=
  calculateEpisodeTime s.chunks s.currentChunkIndex + s.offset

/-- The chunk-search loop of the fullscreen scrubber handler
(player.js lines 536-545):

```
let timeAccum = 0;
for (const chunk of chunks) {
    const chunkDur = chunk.duration_secs || 0;
    if (timeAccum + chunkDur > targetTime) { targetChunk = chunk; break; }
    timeAccum += chunkDur;
}
```
-/
def findChunkLoop (targetTime : ℚ) : ℚ → List Chunk → Option Chunk
  | _, [] => none
  | timeAccum, c :: rest =>
    if timeAccum + c.duration_secs > targetTime then some c
    else findChunkLoop targetTime (timeAccum + c.duration_secs) rest

/-- The complete chunk lookup of the scrubber handler, including the
initialisation `let targetChunk = chunks[0]` that acts as the fallback when
the loop never breaks. -/
def chunkAt (chunks : List Chunk) (targetTime : ℚ) : Option Chunk :=
  match chunks with
  | [] => none
  | c0 :: _ => some ((findChunkLoop targetTime 0 chunks).getD c0)

/-- The episode-level seek performed by the `fs-scrubber` input handler
(player.js lines 530-562) for a target time already converted from the
percentage: resolve the chunk via `chunkAt`, then set
`audio.currentTime = targetTime - calculateEpisodeTime(chunk)` (the same
offset is assigned on both the same-chunk and the chunk-transition
branches; `loadChunk` first resets `currentTime` to `0` via
`audio.load()`). -/
def seekEpisodeTime (s : PlayerState) (targetTime : ℚ) : PlayerState :=
  match chunkAt s.chunks targetTime with
  | none => s
  | some tc =>
    let chunkStartTime := calculateEpisodeTime s.chunks tc.chunk_index
    { s with currentChunkIndex := tc.chunk_index,
             offset := clampTime (targetTime - chunkStartTime) tc.duration_secs }

/-- `skip(secs)` (player.js lines 1093-1096):
`audio.currentTime = Math.max(0, Math.min(audio.duration || 0,
audio.currentTime + secs))`. -/
def skip (s : PlayerState) (secs : ℚ) : PlayerState :=
  { s with offset := max 0 (min (currentChunkDuration s) (s.offset + secs)) }

/-- `loadChunk(chunkIndex)` (player.js lines 278-352), restricted to its
cursor effects: `currentChunkIndex` is assigned first; if the chunk is not
in the list the function returns early leaving the audio untouched,
otherwise `audio.load()` resets `currentTime` to `0`. -/
def loadChunkOp (s : PlayerState) (chunkIndex : Nat) : PlayerState :=
  match findChunk s.chunks chunkIndex with
  | none => { s with currentChunkIndex := chunkIndex }
  | some _ => { s with currentChunkIndex := chunkIndex, offset := 0 }

/-- `nextChunk()` (player.js lines 1107-1114). -/
def nextChunkOp (s : PlayerState) : PlayerState :=
  match findIndex (fun c => c.chunk_index == s.currentChunkIndex) s.chunks with
  | none => s
  | some idx =>
    match s.chunks.get? (idx + 1) with
    | some c => loadChunkOp s c.chunk_index
    | none => s

/-- `prevChunk()` (player.js lines 1098-1105). -/
def prevChunkOp (s : PlayerState) : PlayerState :=
  match findIndex (fun c => c.chunk_index == s.currentChunkIndex) s.chunks with
  | none => s
  | some idx =>
    if 0 < idx then
      match s.chunks.get? (idx - 1) with
      | some c => loadChunkOp s c.chunk_index
      | none => s
    else s

/-- `onEnded()` auto-advance (player.js lines 417-439): load the next
chunk when one exists, otherwise the episode is complete (`savePosition(100)`,
'Episode complete!') and the cursor does not move.  The boolean is `true`
exactly on the completion branch. -/
def onEnded (s : PlayerState) : PlayerState × Bool :=
  match findIndex (fun c => c.chunk_index == s.currentChunkIndex) s.chunks with
  | none => (s, true)
  | some idx =>
    match s.chunks.get? (idx + 1) with
    | some c => (loadChunkOp s c.chunk_index, false)
    | none => (s, true)

/-- The cursor-restoring logic of `loadEpisode` (player.js lines 48-56 and
69-72): validate the requested index against the ready list, falling back
to the first ready chunk when absent; then, when `position_secs` is truthy,
assign it to `audio.currentTime` (clamped by the media element to the
loaded chunk's duration), and otherwise leave the freshly loaded chunk at
offset `0`. -/
def resumeAt (chunks : List Chunk) (requestedIndex : Nat) (positionSecs : ℚ) : Nat × ℚ :=
  match chunks with
  | [] => (requestedIndex, positionSecs)
  | c0 :: _ =>
    let ci :=
      match findIndex (fun c => c.chunk_index == requestedIndex) chunks with
      | some _ => requestedIndex
      | none => c0.chunk_index
    let dur := ((findChunk chunks ci).map (·.duration_secs)).getD 0
    let off := if positionSecs == 0 then 0 else clampTime positionSecs dur
    (ci, off)

/-- `loadEpisode` (player.js lines 25-83), restricted to its tracker-state
effects: filter to ready chunks; when none is ready, report the error and
return before computing the total or touching the cursor; otherwise compute
the total, pick the requested chunk (`startChunk`, else the persisted
`current_chunk_index`, else `0`) and restore the cursor through the
`resumeAt` logic.  The boolean is `true` on a successful load. -/
def loadEpisodeStep (s : PlayerState) (raw : List Chunk) (startChunk : Option Nat)
    (savedIdx : Option Nat) (positionSecs : ℚ) : PlayerState × Bool :=
  let ready := readyChunks raw
  if ready.length = 0 then
    ({ s with chunks := ready }, false)
  else
    let requested :=
      match startChunk with
      | some i => i
      | none => match savedIdx with | some i => i | none => 0
    let pos := match startChunk with | some _ => 0 | none => positionSecs
    let r := resumeAt ready requested pos
    ({ chunks := ready, currentChunkIndex := r.1, offset := r.2,
       totalVar := totalEpisodeDuration ready }, true)

/-- The `percent_listened` field produced by `savePosition(forcePct)`
(player.js lines 1053-1073): `forcePct` when given, otherwise
`((idx + chunkPct) / totalChunks) * 100` with `idx` the JS `findIndex`
result (`-1` when absent) and `chunkPct = currentTime / duration` (or `0`
without a duration); the result is capped with `Math.min(100, pct)`. -/
def savePositionPercent (chunks : List Chunk) (currentChunkIndex : Nat)
    (currentTime duration : ℚ) (forcePct : Option ℚ) : ℚ :=
  let idx : Int :=
    match findIndex (fun c => c.chunk_index == currentChunkIndex) chunks with
    | some i => (i : Int)
    | none => -1
  let totalChunks := chunks.length
  let pct : ℚ :=
    match forcePct with
    | some p => p
    | none =>
      let chunkPct : ℚ := if duration == 0 then 0 else currentTime / duration
      if 0 < totalChunks then (((idx : ℚ) + chunkPct) / (totalChunks : ℚ)) * 100 else 0
  min 100 pct

/-- All chunk durations are non-negative (durations are media lengths;
unknown ones are reported as `0`). -/
def durationsNonneg (l : List Chunk) : Prop := ∀ c ∈ l, 0 ≤ c.duration_secs

/-- The ready-chunk list is strictly ascending by `chunk_index` (the order
the backend delivers and the spec maintains). -/
def sortedByIndex (l : List Chunk) : Prop :=
  l.Pairwise (fun a b => a.chunk_index < b.chunk_index)

/-- A well-formed loaded state: a non-empty ascending ready list with
non-negative durations, the cursor on a chunk of the list, and an offset
inside `[0, duration]` of that chunk. -/
def ValidState (s : PlayerState) : Prop :=
  s.chunks ≠ [] ∧ durationsNonneg s.chunks ∧ sortedByIndex s.chunks ∧
    (findChunk s.chunks s.currentChunkIndex).isSome ∧
    0 ≤ s.offset ∧ s.offset ≤ currentChunkDuration s

/-- One tracker operation, as dispatched from the UI event handlers: an
episode-level scrubber seek, a relative skip, the prev/next chunk buttons,
the `ended` auto-advance, a queue-item click (always on a chunk of the
list), or a resume through the `loadEpisode` restore logic on the same
chunk list. -/
inductive Step : PlayerState → PlayerState → Prop
  | seek (s : PlayerState) (t : ℚ) : Step s (seekEpisodeTime s t)
  | skipBy (s : PlayerState) (d : ℚ) : Step s (skip s d)
  | next (s : PlayerState) : Step s (nextChunkOp s)
  | prev (s : PlayerState) : Step s (prevChunkOp s)
  | ended (s : PlayerState) : Step s (onEnded s).1
  | queueClick (s : PlayerState) (c : Chunk) (hc : c ∈ s.chunks) :
      Step s (loadChunkOp s c.chunk_index)
  | resume (s : PlayerState) (ci : Nat) (off : ℚ) :
      Step s { s with currentChunkIndex := (resumeAt s.chunks ci off).1,
                      offset := (resumeAt s.chunks ci off).2 }

/-- Positional prefix sum: total duration of the first `i` chunks. -/
def prefixAt (chunks : List Chunk) (i : Nat) : ℚ :=
  totalEpisodeDuration (chunks.take i)

/-- Proof-side positional mirror of `findChunkLoop`, returning the position
of the chunk the loop breaks at. -/
def findChunkPos (targetTime : ℚ) : ℚ → List Chunk → Option Nat
  | _, [] => none
  | timeAccum, c :: rest =>
    if timeAccum + c.duration_secs > targetTime then some 0
    else (findChunkPos targetTime (timeAccum + c.duration_secs) rest).map (· + 1)


/-! ### Supporting lemmas -/

theorem totalEpisodeDuration_foldl (l : List Chunk) (a : ℚ) :
    l.foldl (fun sum c => sum + c.duration_secs) a = a + totalEpisodeDuration l := by
  induction l generalizing a with
  | nil => simp [totalEpisodeDuration]
  | cons c rest ih =>
    simp only [totalEpisodeDuration, List.foldl_cons] at *
    rw [ih, ih (0 + c.duration_secs)]
    ring

theorem totalEpisodeDuration_nil : totalEpisodeDuration [] = 0 := rfl

theorem totalEpisodeDuration_cons (c : Chunk) (l : List Chunk) :
    totalEpisodeDuration (c :: l) = c.duration_secs + totalEpisodeDuration l := by
  calc totalEpisodeDuration (c :: l)
      = l.foldl (fun sum x => sum + x.duration_secs) (0 + c.duration_secs) := rfl
    _ = (0 + c.duration_secs) + totalEpisodeDuration l := totalEpisodeDuration_foldl l _
    _ = c.duration_secs + totalEpisodeDuration l := by ring

theorem calculateEpisodeTime_foldl (l : List Chunk) (ci : Nat) (a : ℚ) :
    l.foldl (fun time c => if c.chunk_index < ci then time + c.duration_secs else time) a
      = a + calculateEpisodeTime l ci := by
  induction l generalizing a with
  | nil => simp [calculateEpisodeTime]
  | cons c rest ih =>
    simp only [calculateEpisodeTime, List.foldl_cons] at *
    by_cases h : c.chunk_index < ci
    · simp only [if_pos h]
      rw [ih, ih (0 + c.duration_secs)]
      ring
    · simp only [if_neg h]
      rw [ih]

theorem calculateEpisodeTime_nil (ci : Nat) : calculateEpisodeTime [] ci = 0 := rfl

theorem calculateEpisodeTime_cons (c : Chunk) (l : List Chunk) (ci : Nat) :
    calculateEpisodeTime (c :: l) ci
      = (if c.chunk_index < ci then c.duration_secs else 0) + calculateEpisodeTime l ci := by
  calc calculateEpisodeTime (c :: l) ci
      = l.foldl (fun time x => if x.chunk_index < ci then time + x.duration_secs else time)
          (if c.chunk_index < ci then 0 + c.duration_secs else 0) := rfl
    _ = (if c.chunk_index < ci then 0 + c.duration_secs else 0) + calculateEpisodeTime l ci :=
        calculateEpisodeTime_foldl l ci _
    _ = (if c.chunk_index < ci then c.duration_secs else 0) + calculateEpisodeTime l ci := by
        by_cases h : c.chunk_index < ci <;> simp [h]

theorem totalEpisodeDuration_nonneg {l : List Chunk} (h : durationsNonneg l) :
    0 ≤ totalEpisodeDuration l := by
  induction l with
  | nil => simp [totalEpisodeDuration_nil]
  | cons c rest ih =>
    rw [totalEpisodeDuration_cons]
    have hc := h c (List.mem_cons_self c rest)
    have hr : durationsNonneg rest := fun x hx => h x (List.mem_cons_of_mem c hx)
    have := ih hr
    linarith

theorem calculateEpisodeTime_nonneg {l : List Chunk} (h : durationsNonneg l) (ci : Nat) :
    0 ≤ calculateEpisodeTime l ci := by
  induction l with
  | nil => simp [calculateEpisodeTime_nil]
  | cons c rest ih =>
    rw [calculateEpisodeTime_cons]
    have hc := h c (List.mem_cons_self c rest)
    have hr : durationsNonneg rest := fun x hx => h x (List.mem_cons_of_mem c hx)
    have := ih hr
    by_cases hlt : c.chunk_index < ci
    · simp only [if_pos hlt]; linarith
    · simp only [if_neg hlt]; linarith

theorem calculateEpisodeTime_le_total {l : List Chunk} (h : durationsNonneg l) (ci : Nat) :
    calculateEpisodeTime l ci ≤ totalEpisodeDuration l := by
  induction l with
  | nil => simp [calculateEpisodeTime_nil, totalEpisodeDuration_nil]
  | cons c rest ih =>
    rw [calculateEpisodeTime_cons, totalEpisodeDuration_cons]
    have hc := h c (List.mem_cons_self c rest)
    have hr : durationsNonneg rest := fun x hx => h x (List.mem_cons_of_mem c hx)
    have := ih hr
    by_cases hlt : c.chunk_index < ci
    · simp only [if_pos hlt]; linarith
    · simp only [if_neg hlt]; linarith

theorem calc_add_dur_le_total {l : List Chunk} (h : durationsNonneg l) {ci : Nat} {c : Chunk}
    (hf : findChunk l ci = some c) :
    calculateEpisodeTime l ci + c.duration_secs ≤ totalEpisodeDuration l := by
  induction l with
  | nil => simp [findChunk, List.find?] at hf
  | cons x rest ih =>
    have hx := h x (List.mem_cons_self x rest)
    have hr : durationsNonneg rest := fun y hy => h y (List.mem_cons_of_mem x hy)
    rw [calculateEpisodeTime_cons, totalEpisodeDuration_cons]
    unfold findChunk at hf
    rw [List.find?_cons] at hf
    by_cases hm : (x.chunk_index == ci) = true
    · simp only [hm] at hf
      have hxc : x = c := by injection hf
      have hix : x.chunk_index = ci := beq_iff_eq.mp hm
      have : ¬ x.chunk_index < ci := by omega
      simp only [if_neg this]
      have h1 := calculateEpisodeTime_le_total hr ci
      subst hxc
      linarith
    · simp only [Bool.not_eq_true] at hm
      simp only [hm] at hf
      have := ih hr hf
      by_cases hlt : x.chunk_index < ci
      · simp only [if_pos hlt]; linarith
      · simp only [if_neg hlt]; linarith
theorem prefixAt_zero (l : List Chunk) : prefixAt l 0 = 0 := rfl

theorem prefixAt_succ_cons (c : Chunk) (l : List Chunk) (i : Nat) :
    prefixAt (c :: l) (i + 1) = c.duration_secs + prefixAt l i := by
  simp only [prefixAt, List.take_succ_cons]
  exact totalEpisodeDuration_cons c (l.take i)

theorem prefixAt_nonneg {l : List Chunk} (h : durationsNonneg l) (i : Nat) :
    0 ≤ prefixAt l i :=
  totalEpisodeDuration_nonneg (fun c hc => h c ((List.take_subset i l) hc))

theorem findChunkPos_step (t a : ℚ) (c : Chunk) (rest : List Chunk) :
    findChunkPos t a (c :: rest)
      = if a + c.duration_secs > t then some 0
        else (findChunkPos t (a + c.duration_secs) rest).map (· + 1) := rfl

theorem findChunk_mem {l : List Chunk} {ci : Nat} {c : Chunk} (h : findChunk l ci = some c) :
    c ∈ l :=
  List.mem_of_find?_eq_some h

theorem findChunk_index {l : List Chunk} {ci : Nat} {c : Chunk} (h : findChunk l ci = some c) :
    c.chunk_index = ci := by
  unfold findChunk at h
  have hp := List.find?_some h
  exact beq_iff_eq.mp hp

theorem findChunk_isSome_of_mem {l : List Chunk} {c : Chunk} (hc : c ∈ l) :
    (findChunk l c.chunk_index).isSome := by
  rw [findChunk, List.find?_isSome]
  exact ⟨c, hc, by simp⟩

theorem findChunk_sorted_mem {l : List Chunk} {c : Chunk} (hs : sortedByIndex l) (hc : c ∈ l) :
    findChunk l c.chunk_index = some c := by
  induction l with
  | nil => cases hc
  | cons x rest ih =>
    rcases List.mem_cons.mp hc with h | h
    · subst h
      unfold findChunk
      rw [List.find?_cons]
      simp
    · have hx : x.chunk_index < c.chunk_index := (List.pairwise_cons.mp hs).1 c h
      unfold findChunk at *
      rw [List.find?_cons]
      have hne : (x.chunk_index == c.chunk_index) = false :=
        beq_eq_false_iff_ne.mpr (Nat.ne_of_lt hx)
      simp only [hne]
      exact ih (List.pairwise_cons.mp hs).2 h

theorem findIndex_isSome_find? {p : Chunk → Bool} {l : List Chunk} {i : Nat}
    (h : findIndex p l = some i) : (l.find? p).isSome := by
  induction l generalizing i with
  | nil => simp [findIndex] at h
  | cons c rest ih =>
    unfold findIndex at h
    rw [List.find?_cons]
    by_cases hp : p c = true
    · simp [hp]
    · simp only [Bool.not_eq_true] at hp
      simp only [hp, Bool.false_eq_true, if_false] at h
      cases hrec : findIndex p rest with
      | none => rw [hrec] at h; simp at h
      | some j =>
        rw [hrec] at h
        simp only [hp]
        exact ih hrec

theorem findChunkLoop_eq_pos (t : ℚ) (a : ℚ) (l : List Chunk) :
    findChunkLoop t a l = (findChunkPos t a l).bind l.get? := by
  induction l generalizing a with
  | nil => rfl
  | cons c rest ih =>
    unfold findChunkLoop findChunkPos
    by_cases h : a + c.duration_secs > t
    · simp [h]
    · simp only [if_neg h]
      rw [ih]
      cases findChunkPos t (a + c.duration_secs) rest <;> simp

theorem findChunkPos_lt_length {t a : ℚ} {l : List Chunk} {i : Nat}
    (h : findChunkPos t a l = some i) : i < l.length := by
  induction l generalizing a i with
  | nil => simp [findChunkPos] at h
  | cons c rest ih =>
    rw [findChunkPos_step] at h
    by_cases hc : a + c.duration_secs > t
    · rw [if_pos hc] at h
      simp only [Option.some.injEq] at h
      subst h
      simp
    · rw [if_neg hc] at h
      cases hrec : findChunkPos t (a + c.duration_secs) rest with
      | none => rw [hrec] at h; simp at h
      | some j =>
        rw [hrec] at h
        have hij : j + 1 = i := by simpa using h
        subst hij
        have := ih hrec
        simp only [List.length_cons]
        omega

theorem findChunkPos_sound {l : List Chunk} {t a : ℚ} {i : Nat}
    (ha : a ≤ t) (h : findChunkPos t a l = some i) :
    ∃ hi : i < l.length,
      a + prefixAt l i ≤ t ∧ t < a + prefixAt l i + (l.get ⟨i, hi⟩).duration_secs := by
  induction l generalizing a i with
  | nil => simp [findChunkPos] at h
  | cons c rest ih =>
    rw [findChunkPos_step] at h
    by_cases hc : a + c.duration_secs > t
    · rw [if_pos hc] at h
      simp only [Option.some.injEq] at h
      subst h
      refine ⟨by simp, ?_, ?_⟩
      · rw [prefixAt_zero]; linarith
      · rw [prefixAt_zero]; simpa using hc
    · rw [if_neg hc] at h
      push_neg at hc
      cases hrec : findChunkPos t (a + c.duration_secs) rest with
      | none => rw [hrec] at h; simp at h
      | some j =>
        rw [hrec] at h
        have hij : j + 1 = i := by simpa using h
        subst hij
        obtain ⟨hjlen, h1, h2⟩ := ih hc hrec
        refine ⟨by simpa using Nat.succ_lt_succ hjlen, ?_, ?_⟩
        · rw [prefixAt_succ_cons]; linarith
        · rw [prefixAt_succ_cons]
          simp only [List.get_cons_succ]
          linarith

theorem findChunkPos_of_contains {l : List Chunk} (hn : durationsNonneg l) {t a : ℚ} {i : Nat}
    (hi : i < l.length)
    (h1 : a + prefixAt l i ≤ t) (h2 : t < a + prefixAt l i + (l.get ⟨i, hi⟩).duration_secs) :
    findChunkPos t a l = some i := by
  induction l generalizing a i with
  | nil => simp at hi
  | cons c rest ih =>
    have hr : durationsNonneg rest := fun y hy => hn y (List.mem_cons_of_mem c hy)
    cases i with
    | zero =>
      rw [prefixAt_zero] at h1 h2
      rw [findChunkPos_step]
      have : a + c.duration_secs > t := by simpa using h2
      rw [if_pos this]
    | succ j =>
      rw [prefixAt_succ_cons] at h1 h2
      have hp0 : 0 ≤ prefixAt rest j := prefixAt_nonneg hr j
      have hcond : ¬ a + c.duration_secs > t := by push_neg; linarith
      rw [findChunkPos_step, if_neg hcond]
      have hjlen : j < rest.length := by simpa using Nat.lt_of_succ_lt_succ hi
      have harg1 : (a + c.duration_secs) + prefixAt rest j ≤ t := by linarith
      have harg2 :
          t < (a + c.duration_secs) + prefixAt rest j + (rest.get ⟨j, hjlen⟩).duration_secs := by
        have : ((c :: rest).get ⟨j + 1, hi⟩) = rest.get ⟨j, hjlen⟩ := rfl
        rw [this] at h2
        linarith
      rw [ih hr hjlen harg1 harg2]
      rfl

theorem findChunkPos_none_of_ge {l : List Chunk} (hn : durationsNonneg l) {t a : ℚ}
    (h : a + totalEpisodeDuration l ≤ t) : findChunkPos t a l = none := by
  induction l generalizing a with
  | nil => rfl
  | cons c rest ih =>
    have hr : durationsNonneg rest := fun y hy => hn y (List.mem_cons_of_mem c hy)
    rw [totalEpisodeDuration_cons] at h
    have htr : 0 ≤ totalEpisodeDuration rest := totalEpisodeDuration_nonneg hr
    have hcond : ¬ a + c.duration_secs > t := by push_neg; linarith
    rw [findChunkPos_step, if_neg hcond, ih hr (by linarith)]
    rfl

theorem findChunkPos_isSome {l : List Chunk} {t a : ℚ}
    (ha : a ≤ t) (h : t < a + totalEpisodeDuration l) : (findChunkPos t a l).isSome := by
  induction l generalizing a with
  | nil =>
    rw [totalEpisodeDuration_nil] at h
    linarith
  | cons c rest ih =>
    rw [totalEpisodeDuration_cons] at h
    rw [findChunkPos_step]
    by_cases hc : a + c.duration_secs > t
    · simp [hc]
    · push_neg at hc
      rw [if_neg (show ¬ a + c.duration_secs > t by push_neg; exact hc)]
      have := ih hc (by linarith)
      cases hpos : findChunkPos t (a + c.duration_secs) rest with
      | none => rw [hpos] at this; simp at this
      | some j => simp

theorem findChunkPos_mono {l : List Chunk} {t1 t2 a : ℚ} {i2 : Nat} (h12 : t1 ≤ t2)
    (h2 : findChunkPos t2 a l = some i2) :
    ∃ i1, i1 ≤ i2 ∧ findChunkPos t1 a l = some i1 := by
  induction l generalizing a i2 with
  | nil => simp [findChunkPos] at h2
  | cons c rest ih =>
    rw [findChunkPos_step] at h2
    by_cases hc2 : a + c.duration_secs > t2
    · rw [if_pos hc2] at h2
      simp only [Option.some.injEq] at h2
      subst h2
      have hc1 : a + c.duration_secs > t1 := lt_of_le_of_lt h12 hc2
      exact ⟨0, le_refl 0, by rw [findChunkPos_step, if_pos hc1]⟩
    · rw [if_neg hc2] at h2
      cases hrec : findChunkPos t2 (a + c.duration_secs) rest with
      | none => rw [hrec] at h2; simp at h2
      | some j2 =>
        rw [hrec] at h2
        have hij : j2 + 1 = i2 := by simpa using h2
        subst hij
        by_cases hc1 : a + c.duration_secs > t1
        · exact ⟨0, Nat.zero_le _, by rw [findChunkPos_step, if_pos hc1]⟩
        · obtain ⟨j1, hle, hj1⟩ := ih hrec
          refine ⟨j1 + 1, Nat.succ_le_succ hle, ?_⟩
          rw [findChunkPos_step, if_neg hc1, hj1]
          rfl
theorem findChunkLoop_step (t a : ℚ) (c : Chunk) (rest : List Chunk) :
    findChunkLoop t a (c :: rest)
      = if a + c.duration_secs > t then some c
        else findChunkLoop t (a + c.duration_secs) rest := rfl

theorem findChunkLoop_mem {t a : ℚ} {l : List Chunk} {c : Chunk}
    (h : findChunkLoop t a l = some c) : c ∈ l := by
  induction l generalizing a with
  | nil => simp [findChunkLoop] at h
  | cons x rest ih =>
    rw [findChunkLoop_step] at h
    by_cases hc : a + x.duration_secs > t
    · rw [if_pos hc] at h
      injection h with h
      subst h
      exact List.mem_cons_self _ _
    · rw [if_neg hc] at h
      exact List.mem_cons_of_mem _ (ih h)

theorem chunkAt_cons_eq (c0 : Chunk) (rest : List Chunk) (t : ℚ) :
    chunkAt (c0 :: rest) t = some ((findChunkLoop t 0 (c0 :: rest)).getD c0) := rfl

theorem chunkAt_mem {l : List Chunk} {t : ℚ} {c : Chunk} (h : chunkAt l t = some c) :
    c ∈ l := by
  cases l with
  | nil => simp [chunkAt] at h
  | cons c0 rest =>
    rw [chunkAt_cons_eq] at h
    injection h with h
    cases hloop : findChunkLoop t 0 (c0 :: rest) with
    | none =>
      rw [hloop] at h
      simp only [Option.getD_none] at h
      subst h
      exact List.mem_cons_self _ _
    | some x =>
      rw [hloop] at h
      simp only [Option.getD_some] at h
      subst h
      exact findChunkLoop_mem hloop

theorem chunkAt_fallback {c0 : Chunk} {rest : List Chunk}
    (hn : durationsNonneg (c0 :: rest)) {t : ℚ}
    (h : totalEpisodeDuration (c0 :: rest) ≤ t) :
    chunkAt (c0 :: rest) t = some c0 := by
  have hnone : findChunkPos t 0 (c0 :: rest) = none :=
    findChunkPos_none_of_ge hn (by linarith)
  have hloop : findChunkLoop t 0 (c0 :: rest) = none := by
    rw [findChunkLoop_eq_pos, hnone]
    rfl
  rw [chunkAt_cons_eq, hloop]
  rfl

theorem chunkAt_of_contains {l : List Chunk} (hn : durationsNonneg l) {t : ℚ} {i : Nat}
    (hi : i < l.length) (h1 : prefixAt l i ≤ t)
    (h2 : t < prefixAt l i + (l.get ⟨i, hi⟩).duration_secs) :
    chunkAt l t = some (l.get ⟨i, hi⟩) := by
  have hpos : findChunkPos t 0 l = some i :=
    findChunkPos_of_contains hn hi (by linarith) (by linarith)
  have hloop : findChunkLoop t 0 l = l.get? i := by
    rw [findChunkLoop_eq_pos, hpos]
    rfl
  cases l with
  | nil => simp at hi
  | cons c0 rest =>
    rw [chunkAt_cons_eq, hloop, List.get?_eq_get hi]
    rfl

theorem sorted_get_index_mono {l : List Chunk} (hs : sortedByIndex l) {i j : Nat}
    (hij : i ≤ j) (hj : j < l.length) :
    (l.get ⟨i, lt_of_le_of_lt hij hj⟩).chunk_index ≤ (l.get ⟨j, hj⟩).chunk_index := by
  rcases Nat.lt_or_ge i j with h | h
  · exact le_of_lt (List.pairwise_iff_get.mp hs ⟨i, lt_of_le_of_lt hij hj⟩ ⟨j, hj⟩ h)
  · have hij2 : i = j := le_antisymm hij h
    subst hij2
    exact le_refl _
theorem validState_elapsed_bounds {s : PlayerState} (h : ValidState s) :
    0 ≤ episodeTimeOf s ∧ episodeTimeOf s ≤ totalEpisodeDuration s.chunks := by
  obtain ⟨hne, hn, hs, hsome, h0, hle⟩ := h
  obtain ⟨c, hc⟩ := Option.isSome_iff_exists.mp hsome
  constructor
  · have := calculateEpisodeTime_nonneg hn s.currentChunkIndex
    unfold episodeTimeOf
    linarith
  · have hdur : currentChunkDuration s = c.duration_secs := by
      unfold currentChunkDuration
      rw [hc]
      rfl
    have := calc_add_dur_le_total hn hc
    rw [hdur] at hle
    unfold episodeTimeOf
    linarith

theorem clampTime_nonneg (x dur : ℚ) : 0 ≤ clampTime x dur := le_max_left 0 _

theorem clampTime_le {x dur : ℚ} (h : 0 ≤ dur) : clampTime x dur ≤ dur :=
  max_le h (min_le_left _ _)

theorem clampTime_eq_self {x dur : ℚ} (h0 : 0 ≤ x) (h1 : x ≤ dur) : clampTime x dur = x := by
  unfold clampTime
  rw [min_eq_right h1, max_eq_right h0]

theorem seekEpisodeTime_of_chunkAt {s : PlayerState} {t : ℚ} {tc : Chunk}
    (h : chunkAt s.chunks t = some tc) :
    seekEpisodeTime s t
      = { s with currentChunkIndex := tc.chunk_index,
                 offset := clampTime (t - calculateEpisodeTime s.chunks tc.chunk_index)
                   tc.duration_secs } := by
  unfold seekEpisodeTime
  rw [h]

theorem valid_seek {s : PlayerState} (h : ValidState s) (t : ℚ) :
    ValidState (seekEpisodeTime s t) := by
  obtain ⟨hne, hn, hs, hsome, h0, hle⟩ := h
  cases hca : chunkAt s.chunks t with
  | none =>
    unfold seekEpisodeTime
    rw [hca]
    exact ⟨hne, hn, hs, hsome, h0, hle⟩
  | some tc =>
    rw [seekEpisodeTime_of_chunkAt hca]
    have htc : tc ∈ s.chunks := chunkAt_mem hca
    have hfind : findChunk s.chunks tc.chunk_index = some tc := findChunk_sorted_mem hs htc
    have hdnn : 0 ≤ tc.duration_secs := hn tc htc
    refine ⟨hne, hn, hs, ?_, clampTime_nonneg _ _, ?_⟩
    · simp only [hfind]
      rfl
    · unfold currentChunkDuration
      simp only [hfind]
      exact clampTime_le hdnn

theorem valid_skip {s : PlayerState} (h : ValidState s) (d : ℚ) :
    ValidState (skip s d) := by
  obtain ⟨hne, hn, hs, hsome, h0, hle⟩ := h
  obtain ⟨c, hc⟩ := Option.isSome_iff_exists.mp hsome
  have hdnn : 0 ≤ c.duration_secs := hn c (findChunk_mem hc)
  have hdur : currentChunkDuration s = c.duration_secs := by
    unfold currentChunkDuration
    rw [hc]
    rfl
  refine ⟨hne, hn, hs, hsome, le_max_left 0 _, ?_⟩
  show max 0 (min (currentChunkDuration s) (s.offset + d)) ≤ currentChunkDuration s
  rw [hdur]
  exact max_le hdnn (min_le_left _ _)

theorem valid_loadChunk {s : PlayerState} (h : ValidState s) {c : Chunk} (hc : c ∈ s.chunks) :
    ValidState (loadChunkOp s c.chunk_index) := by
  obtain ⟨hne, hn, hs, hsome, h0, hle⟩ := h
  have hfind : findChunk s.chunks c.chunk_index = some c := findChunk_sorted_mem hs hc
  have hdnn : 0 ≤ c.duration_secs := hn c hc
  unfold loadChunkOp
  rw [hfind]
  refine ⟨hne, hn, hs, ?_, le_refl 0, ?_⟩
  · simp only [hfind]
    rfl
  · unfold currentChunkDuration
    simp only [hfind]
    exact hdnn

theorem valid_next {s : PlayerState} (h : ValidState s) : ValidState (nextChunkOp s) := by
  unfold nextChunkOp
  split
  · exact h
  · split
    · exact valid_loadChunk h (List.get?_mem (by assumption))
    · exact h

theorem valid_prev {s : PlayerState} (h : ValidState s) : ValidState (prevChunkOp s) := by
  unfold prevChunkOp
  split
  · exact h
  · split
    · split
      · exact valid_loadChunk h (List.get?_mem (by assumption))
      · exact h
    · exact h

theorem valid_ended {s : PlayerState} (h : ValidState s) : ValidState (onEnded s).1 := by
  unfold onEnded
  split
  · exact h
  · split
    · exact valid_loadChunk h (List.get?_mem (by assumption))
    · exact h

theorem resumeAt_spec {l : List Chunk} (hne : l ≠ []) (ci : Nat) (off : ℚ) :
    ∃ c, findChunk l (resumeAt l ci off).1 = some c ∧
      ((resumeAt l ci off).2 = 0 ∨
        (resumeAt l ci off).2 = clampTime off c.duration_secs) := by
  cases l with
  | nil => exact absurd rfl hne
  | cons c0 rest =>
    cases hfi : findIndex (fun c => c.chunk_index == ci) (c0 :: rest) with
    | some i =>
      have hsome : ((c0 :: rest).find? (fun c => c.chunk_index == ci)).isSome :=
        findIndex_isSome_find? hfi
      obtain ⟨c, hc⟩ := Option.isSome_iff_exists.mp hsome
      have h1 : (resumeAt (c0 :: rest) ci off).1 = ci := by
        unfold resumeAt
        rw [hfi]
      refine ⟨c, ?_, ?_⟩
      · rw [h1]
        exact hc
      · have h2 : (resumeAt (c0 :: rest) ci off).2
            = if off == 0 then 0
              else clampTime off (((findChunk (c0 :: rest) ci).map (·.duration_secs)).getD 0) := by
          unfold resumeAt
          rw [hfi]
        rw [h2]
        by_cases hz : (off == 0) = true
        · rw [if_pos hz]
          exact Or.inl rfl
        · rw [if_neg (by simpa using hz)]
          refine Or.inr ?_
          have hfc : findChunk (c0 :: rest) ci = some c := hc
          rw [hfc]
          rfl
    | none =>
      have hmem : c0 ∈ (c0 :: rest) := List.mem_cons_self _ _
      have hsome : (findChunk (c0 :: rest) c0.chunk_index).isSome :=
        findChunk_isSome_of_mem hmem
      obtain ⟨c, hc⟩ := Option.isSome_iff_exists.mp hsome
      have h1 : (resumeAt (c0 :: rest) ci off).1 = c0.chunk_index := by
        unfold resumeAt
        rw [hfi]
      refine ⟨c, ?_, ?_⟩
      · rw [h1]
        exact hc
      · have h2 : (resumeAt (c0 :: rest) ci off).2
            = if off == 0 then 0
              else clampTime off
                (((findChunk (c0 :: rest) c0.chunk_index).map (·.duration_secs)).getD 0) := by
          unfold resumeAt
          rw [hfi]
        rw [h2]
        by_cases hz : (off == 0) = true
        · rw [if_pos hz]
          exact Or.inl rfl
        · rw [if_neg (by simpa using hz)]
          refine Or.inr ?_
          rw [hc]
          rfl

theorem valid_resume {s : PlayerState} (h : ValidState s) (ci : Nat) (off : ℚ) :
    ValidState { s with currentChunkIndex := (resumeAt s.chunks ci off).1,
                        offset := (resumeAt s.chunks ci off).2 } := by
  obtain ⟨hne, hn, hs, hsome, h0, hle⟩ := h
  obtain ⟨c, hc, hoff⟩ := resumeAt_spec hne ci off
  have hdnn : 0 ≤ c.duration_secs := hn c (findChunk_mem hc)
  refine ⟨hne, hn, hs, ?_, ?_, ?_⟩
  · simp only [hc]
    rfl
  · show 0 ≤ (resumeAt s.chunks ci off).2
    rcases hoff with h | h
    · rw [h]
    · rw [h]
      exact clampTime_nonneg _ _
  · show (resumeAt s.chunks ci off).2
        ≤ ((findChunk s.chunks (resumeAt s.chunks ci off).1).map (·.duration_secs)).getD 0
    rw [hc]
    simp only [Option.map_some', Option.getD_some]
    rcases hoff with h | h
    · rw [h]
      exact hdnn
    · rw [h]
      exact clampTime_le hdnn

theorem step_preserves {s s' : PlayerState} (h : ValidState s) (hstep : Step s s') :
    ValidState s' := by
  cases hstep with
  | seek t => exact valid_seek h t
  | skipBy d => exact valid_skip h d
  | next => exact valid_next h
  | prev => exact valid_prev h
  | ended => exact valid_ended h
  | queueClick c hc => exact valid_loadChunk h hc
  | resume ci off => exact valid_resume h ci off
theorem calc_eq_zero_of_forall {l : List Chunk} {ci : Nat}
    (h : ∀ c ∈ l, ¬ c.chunk_index < ci) : calculateEpisodeTime l ci = 0 := by
  induction l with
  | nil => rfl
  | cons c rest ih =>
    rw [calculateEpisodeTime_cons, if_neg (h c (List.mem_cons_self _ _)),
      ih (fun x hx => h x (List.mem_cons_of_mem _ hx))]
    ring

theorem calc_get_eq_prefixAt {l : List Chunk} (hs : sortedByIndex l) (i : Nat)
    (hi : i < l.length) :
    calculateEpisodeTime l (l.get ⟨i, hi⟩).chunk_index = prefixAt l i := by
  induction l generalizing i with
  | nil => simp at hi
  | cons c rest ih =>
    cases i with
    | zero =>
      have hg : (c :: rest).get ⟨0, hi⟩ = c := rfl
      rw [hg, prefixAt_zero]
      apply calc_eq_zero_of_forall
      intro x hx
      rcases List.mem_cons.mp hx with h | h
      · subst h
        exact lt_irrefl _
      · have := (List.pairwise_cons.mp hs).1 x h
        omega
    | succ j =>
      have hjlen : j < rest.length := by simpa using Nat.lt_of_succ_lt_succ hi
      have hg : (c :: rest).get ⟨j + 1, hi⟩ = rest.get ⟨j, hjlen⟩ := rfl
      rw [hg, prefixAt_succ_cons, calculateEpisodeTime_cons]
      have hcx : c.chunk_index < (rest.get ⟨j, hjlen⟩).chunk_index :=
        (List.pairwise_cons.mp hs).1 _ (List.get_mem rest j hjlen)
      rw [if_pos hcx, ih (List.pairwise_cons.mp hs).2 j hjlen]

theorem chunkAt_eq_get_of_pos {l : List Chunk} {t : ℚ} {i : Nat}
    (hpos : findChunkPos t 0 l = some i) (hi : i < l.length) :
    chunkAt l t = some (l.get ⟨i, hi⟩) := by
  have hloop : findChunkLoop t 0 l = l.get? i := by
    rw [findChunkLoop_eq_pos, hpos]
    rfl
  cases l with
  | nil => simp at hi
  | cons c0 rest =>
    rw [chunkAt_cons_eq, hloop, List.get?_eq_get hi]
    rfl

theorem findIndex_eq_none_iff {p : Chunk → Bool} {l : List Chunk} :
    findIndex p l = none ↔ ∀ c ∈ l, p c = false := by
  induction l with
  | nil => simp [findIndex]
  | cons c rest ih =>
    unfold findIndex
    by_cases hp : p c = true
    · simp [hp]
    · simp only [Bool.not_eq_true] at hp
      simp only [hp, Bool.false_eq_true, if_false]
      constructor
      · intro h x hx
        rcases List.mem_cons.mp hx with hxc | hxr
        · subst hxc; exact hp
        · cases hrec : findIndex p rest with
          | none => exact ih.mp hrec x hxr
          | some j => rw [hrec] at h; simp at h
      · intro h
        have : findIndex p rest = none := ih.mpr (fun x hx => h x (List.mem_cons_of_mem _ hx))
        rw [this]
        rfl

theorem findIndex_isSome_of_find? {p : Chunk → Bool} {l : List Chunk} {c : Chunk}
    (h : l.find? p = some c) : (findIndex p l).isSome := by
  cases hfi : findIndex p l with
  | some i => rfl
  | none =>
    have hall := findIndex_eq_none_iff.mp hfi
    have hmem := List.mem_of_find?_eq_some h
    have hp := List.find?_some h
    rw [hall c hmem] at hp
    exact Bool.noConfusion hp

/-! ### Claim theorems -/

/-- Claim C1, counterexample to the claim as stated: with ready chunks of
indices `0, 1` and durations `1, 1` (total duration `2`), the lookup at
`t = 2` (at least the total duration) returns the FIRST chunk, not the last
one as the claim asserts — the loop never breaks and `targetChunk` retains
its initialisation `chunks[0]`. -/
theorem claim1_counterexample :
    chunkAt [⟨0, 1, "ready"⟩, ⟨1, 1, "ready"⟩] 2 = some ⟨0, 1, "ready"⟩ ∧
      (⟨0, 1, "ready"⟩ : Chunk) ≠ (⟨1, 1, "ready"⟩ : Chunk) := by
  constructor
  · norm_num [chunkAt, findChunkLoop]
  · simp

/-- Claim C1 (amended): for every loaded non-empty ascending ready-chunk
sequence with non-negative durations, the chunk lookup returns the chunk
whose cumulative interval `[prefixTime(idx), prefixTime(idx) + duration)`
contains `t` (so a tie at a boundary resolves to the later chunk with a
non-empty interval); but when `t` is at least the total duration it falls
back to the FIRST chunk of the sequence (the `chunks[0]` initialisation),
not the last one. -/
theorem claim1_chunk_lookup (l : List Chunk) (t : ℚ)
    (hne : l ≠ []) (hs : sortedByIndex l) (hn : durationsNonneg l) :
    (∀ (i : Nat) (hi : i < l.length),
        calculateEpisodeTime l (l.get ⟨i, hi⟩).chunk_index ≤ t →
        t < calculateEpisodeTime l (l.get ⟨i, hi⟩).chunk_index
            + (l.get ⟨i, hi⟩).duration_secs →
        chunkAt l t = some (l.get ⟨i, hi⟩)) ∧
    (totalEpisodeDuration l ≤ t → chunkAt l t = l.head?) := by
  constructor
  · intro i hi h1 h2
    rw [calc_get_eq_prefixAt hs i hi] at h1 h2
    exact chunkAt_of_contains hn hi h1 h2
  · intro h
    cases l with
    | nil => exact absurd rfl hne
    | cons c0 rest => rw [chunkAt_fallback hn h]; rfl

/-- Witness for C1: on chunks of durations `100, 50, 30`, time `120` lies in
chunk 1's interval `[100, 150)` and the lookup returns chunk 1; and `180`
(the total) falls back to the first chunk. -/
theorem claim1_witness :
    chunkAt [⟨0, 100, "ready"⟩, ⟨1, 50, "ready"⟩, ⟨2, 30, "ready"⟩] 120
        = some ⟨1, 50, "ready"⟩ ∧
      chunkAt [⟨0, 100, "ready"⟩, ⟨1, 50, "ready"⟩, ⟨2, 30, "ready"⟩] 180
        = some ⟨0, 100, "ready"⟩ := by
  have h := claim1_chunk_lookup [⟨0, 100, "ready"⟩, ⟨1, 50, "ready"⟩, ⟨2, 30, "ready"⟩] 120
    (by simp) (by unfold sortedByIndex; decide)
    (by intro c hc; fin_cases hc <;> norm_num)
  have h2 := claim1_chunk_lookup [⟨0, 100, "ready"⟩, ⟨1, 50, "ready"⟩, ⟨2, 30, "ready"⟩] 180
    (by simp) (by unfold sortedByIndex; decide)
    (by intro c hc; fin_cases hc <;> norm_num)
  constructor
  · exact h.1 1 (by norm_num)
      (by norm_num [calculateEpisodeTime])
      (by norm_num [calculateEpisodeTime])
  · exact h2.2 (by norm_num [totalEpisodeDuration])

/-- Claim C3: the spec scenario — chunks with indices `0, 1, 2` and
durations `100, 50, 30`; an episode-level seek to `120` resolves to chunk
index 1 with in-chunk offset `20` (prefix sums `0, 100, 150`). -/
theorem claim3_scenario :
    (seekEpisodeTime ⟨[⟨0, 100, "ready"⟩, ⟨1, 50, "ready"⟩, ⟨2, 30, "ready"⟩], 0, 0, 180⟩
        120).currentChunkIndex = 1 ∧
    (seekEpisodeTime ⟨[⟨0, 100, "ready"⟩, ⟨1, 50, "ready"⟩, ⟨2, 30, "ready"⟩], 0, 0, 180⟩
        120).offset = 20 := by
  norm_num [seekEpisodeTime, chunkAt, findChunkLoop, calculateEpisodeTime, clampTime,
    min_def, max_def]
/-- Claim C2, counterexample to the claim as stated: with two ready chunks
of duration `1` each (total `2`) and a seek to `t = 2 = clamp(2, 0, 2)`,
the lookup falls back to the first chunk, the media element clamps the
offset to that chunk's duration, and the episode time reads back `1`,
not `2`. -/
theorem claim2_counterexample :
    episodeTimeOf (seekEpisodeTime ⟨[⟨0, 1, "ready"⟩, ⟨1, 1, "ready"⟩], 0, 0, 2⟩ 2) = 1 ∧
      max 0 (min (totalEpisodeDuration [⟨0, 1, "ready"⟩, ⟨1, 1, "ready"⟩]) 2) = 2 ∧
      (1 : ℚ) ≠ 2 := by
  refine ⟨?_, ?_, by norm_num⟩
  · norm_num [episodeTimeOf, seekEpisodeTime, chunkAt, findChunkLoop, calculateEpisodeTime,
      clampTime, min_def, max_def]
  · norm_num [totalEpisodeDuration, min_def, max_def]

/-- Claim C2 (amended): on a loaded non-empty ascending ready-chunk
sequence with non-negative durations, a seek to `t` with
`0 ≤ t < totalDuration` followed by reading the episode time yields exactly
`clamp(t, 0, total) = t` (exact in the rational model, hence within one
floating-point epsilon); but for `t` at least the total duration the seek
resolves the first chunk and the value read back is that chunk's duration,
not `clamp(t, 0, total) = total`. -/
theorem claim2_seek_roundtrip (s : PlayerState) (t : ℚ)
    (hne : s.chunks ≠ []) (hs : sortedByIndex s.chunks) (hn : durationsNonneg s.chunks) :
    (0 ≤ t → t < totalEpisodeDuration s.chunks →
      episodeTimeOf (seekEpisodeTime s t)
        = max 0 (min (totalEpisodeDuration s.chunks) t)) ∧
    (∀ c0, s.chunks.head? = some c0 → totalEpisodeDuration s.chunks ≤ t →
      episodeTimeOf (seekEpisodeTime s t) = c0.duration_secs) := by
  constructor
  · intro h0 hlt
    obtain ⟨i, hpos⟩ :=
      Option.isSome_iff_exists.mp (findChunkPos_isSome (l := s.chunks) h0 (by linarith))
    have hi : i < s.chunks.length := findChunkPos_lt_length hpos
    obtain ⟨hi2, hp1, hp2⟩ := findChunkPos_sound h0 hpos
    have hca : chunkAt s.chunks t = some (s.chunks.get ⟨i, hi⟩) :=
      chunkAt_eq_get_of_pos hpos hi
    rw [seekEpisodeTime_of_chunkAt hca]
    have hcalc := calc_get_eq_prefixAt hs i hi
    show calculateEpisodeTime s.chunks (s.chunks.get ⟨i, hi⟩).chunk_index
        + clampTime (t - calculateEpisodeTime s.chunks (s.chunks.get ⟨i, hi⟩).chunk_index)
            (s.chunks.get ⟨i, hi⟩).duration_secs
      = max 0 (min (totalEpisodeDuration s.chunks) t)
    rw [hcalc]
    rw [clampTime_eq_self (by linarith) (by linarith)]
    rw [min_eq_right (le_of_lt hlt), max_eq_right h0]
    ring
  · intro c0 hhead h
    cases hl : s.chunks with
    | nil => rw [hl] at hhead; simp at hhead
    | cons x rest =>
      have hx : x = c0 := by rw [hl] at hhead; injection hhead
      subst hx
      have hn2 : durationsNonneg (x :: rest) := hl ▸ hn
      have hca : chunkAt s.chunks t = some x := by
        rw [hl]
        exact chunkAt_fallback hn2 (by rw [← hl]; exact h)
      rw [seekEpisodeTime_of_chunkAt hca]
      show calculateEpisodeTime s.chunks x.chunk_index
          + clampTime (t - calculateEpisodeTime s.chunks x.chunk_index) x.duration_secs
        = x.duration_secs
      have hcalc0 : calculateEpisodeTime s.chunks x.chunk_index = 0 := by
        rw [hl]
        apply calc_eq_zero_of_forall
        intro c hc
        rcases List.mem_cons.mp hc with hcx | hcr
        · subst hcx; exact lt_irrefl _
        · have := (List.pairwise_cons.mp (hl ▸ hs)).1 c hcr
          omega
      rw [hcalc0]
      have hrise : totalEpisodeDuration s.chunks
          = x.duration_secs + totalEpisodeDuration rest := by
        rw [hl]
        exact totalEpisodeDuration_cons x rest
      have hrnn : 0 ≤ totalEpisodeDuration rest :=
        totalEpisodeDuration_nonneg
          (fun c hc => hn2 c (List.mem_cons_of_mem _ hc))
      have hdx : 0 ≤ x.duration_secs := hn2 x (List.mem_cons_self _ _)
      have hxt : x.duration_secs ≤ t := by
        rw [hrise] at h
        linarith
      unfold clampTime
      rw [sub_zero, min_eq_left hxt, max_eq_right hdx]
      ring

/-- Witness for C2: on the two-chunk sequence of durations `1, 1`, seeking
to `t = 3/2` and reading back the episode time gives exactly
`clamp(3/2, 0, 2) = 3/2`; and seeking to `t = 5` (past the total) reads
back the first chunk's duration `1`. -/
theorem claim2_witness :
    episodeTimeOf (seekEpisodeTime ⟨[⟨0, 1, "ready"⟩, ⟨1, 1, "ready"⟩], 0, 0, 2⟩ (3/2))
        = max 0 (min (totalEpisodeDuration [⟨0, 1, "ready"⟩, ⟨1, 1, "ready"⟩]) (3/2)) ∧
      episodeTimeOf (seekEpisodeTime ⟨[⟨0, 1, "ready"⟩, ⟨1, 1, "ready"⟩], 0, 0, 2⟩ 5)
        = (⟨0, 1, "ready"⟩ : Chunk).duration_secs := by
  have h := claim2_seek_roundtrip ⟨[⟨0, 1, "ready"⟩, ⟨1, 1, "ready"⟩], 0, 0, 2⟩ (3/2)
    (by simp) (by unfold sortedByIndex; decide)
    (by intro c hc; fin_cases hc <;> norm_num)
  have h2 := claim2_seek_roundtrip ⟨[⟨0, 1, "ready"⟩, ⟨1, 1, "ready"⟩], 0, 0, 2⟩ 5
    (by simp) (by unfold sortedByIndex; decide)
    (by intro c hc; fin_cases hc <;> norm_num)
  constructor
  · exact h.1 (by norm_num) (by norm_num [totalEpisodeDuration])
  · exact h2.2 ⟨0, 1, "ready"⟩ rfl (by norm_num [totalEpisodeDuration])
/-- Claim C4, counterexample to the claim as stated: chunks of durations
`10, 10`, cursor on chunk 0 at offset 5; a skip of `+10` seconds stays on
chunk 0 (offset clamped to `10`, the current chunk's duration), while an
episode-level seek to `currentEpisodeTime() + 10 = 15` would resolve chunk
1 — the code's relative skip never crosses a chunk boundary. -/
theorem claim4_counterexample :
    (skip ⟨[⟨0, 10, "ready"⟩, ⟨1, 10, "ready"⟩], 0, 5, 20⟩ 10).currentChunkIndex = 0 ∧
      (seekEpisodeTime ⟨[⟨0, 10, "ready"⟩, ⟨1, 10, "ready"⟩], 0, 5, 20⟩
          (episodeTimeOf ⟨[⟨0, 10, "ready"⟩, ⟨1, 10, "ready"⟩], 0, 5, 20⟩ + 10)
        ).currentChunkIndex = 1 ∧
      (0 : Nat) ≠ 1 := by
  refine ⟨rfl, ?_, by norm_num⟩
  norm_num [seekEpisodeTime, chunkAt, findChunkLoop, calculateEpisodeTime, clampTime,
    episodeTimeOf, min_def, max_def]

/-- Claim C4 (amended): the relative skip is a chunk-local operation — it
never changes the current chunk, and it is equivalent to a seek of the
episode time to `currentEpisodeTime() + delta` clamped to the CURRENT
CHUNK's cumulative interval `[prefixTime(cursor), prefixTime(cursor) +
chunkDuration]`, not to the episode bounds `[0, totalDuration]`. -/
theorem claim4_skip_chunk_local (s : PlayerState) (d : ℚ) :
    (skip s d).currentChunkIndex = s.currentChunkIndex ∧
    episodeTimeOf (skip s d)
      = max (calculateEpisodeTime s.chunks s.currentChunkIndex)
          (min (calculateEpisodeTime s.chunks s.currentChunkIndex + currentChunkDuration s)
            (episodeTimeOf s + d)) := by
  refine ⟨rfl, ?_⟩
  show calculateEpisodeTime s.chunks s.currentChunkIndex
      + max 0 (min (currentChunkDuration s) (s.offset + d)) = _
  rw [← max_add_add_left, ← min_add_add_left, add_zero]
  unfold episodeTimeOf
  ring_nf

/-- Claim C5: on a valid loaded state whose ready chunks all have known
positive durations, every tracker operation leaves the derived elapsed time
(prefix sum below the cursor's chunk plus the in-chunk offset) between `0`
and the total duration of the ready chunks. -/
theorem claim5_elapsed_invariant (s s2 : PlayerState) (h : ValidState s)
    (hpos : ∀ c ∈ s.chunks, 0 < c.duration_secs) (hstep : Step s s2) :
    0 ≤ episodeTimeOf s2 ∧ episodeTimeOf s2 ≤ totalEpisodeDuration s2.chunks :=
  validState_elapsed_bounds (step_preserves h hstep)

/-- Witness for C5: a concrete valid two-chunk state, skipped forward by
7 seconds, keeps its elapsed time inside `[0, total]`. -/
theorem claim5_witness :
    0 ≤ episodeTimeOf (skip ⟨[⟨0, 10, "ready"⟩, ⟨1, 10, "ready"⟩], 0, 5, 20⟩ 7) ∧
      episodeTimeOf (skip ⟨[⟨0, 10, "ready"⟩, ⟨1, 10, "ready"⟩], 0, 5, 20⟩ 7)
        ≤ totalEpisodeDuration
            (skip ⟨[⟨0, 10, "ready"⟩, ⟨1, 10, "ready"⟩], 0, 5, 20⟩ 7).chunks :=
  claim5_elapsed_invariant ⟨[⟨0, 10, "ready"⟩, ⟨1, 10, "ready"⟩], 0, 5, 20⟩ _
    (by
      refine ⟨by simp, ?_, ?_, ?_, ?_, ?_⟩
      · intro c hc
        fin_cases hc <;> norm_num
      · unfold sortedByIndex
        decide
      · rfl
      · norm_num
      · show (5 : ℚ) ≤ ((findChunk _ 0).map (·.duration_secs)).getD 0
        norm_num [findChunk, List.find?])
    (by intro c hc; fin_cases hc <;> norm_num)
    (Step.skipBy _ 7)
/-- Claim C6, counterexample to the claim as stated: with chunks of
durations `1, 1` (total `2`), `t1 = 1 < t2 = 2` but the lookup resolves
chunk index `1` at `t1` and falls back to chunk index `0` at `t2` — the
resolved chunk index strictly DECREASES once `t2` reaches the total
duration. -/
theorem claim6_counterexample :
    (1 : ℚ) < 2 ∧
      (chunkAt [⟨0, 1, "ready"⟩, ⟨1, 1, "ready"⟩] 1).map (·.chunk_index) = some 1 ∧
      (chunkAt [⟨0, 1, "ready"⟩, ⟨1, 1, "ready"⟩] 2).map (·.chunk_index) = some 0 ∧
      ¬ (1 : Nat) ≤ 0 := by
  refine ⟨by norm_num, ?_, ?_, by norm_num⟩
  · norm_num [chunkAt, findChunkLoop]
  · norm_num [chunkAt, findChunkLoop]

/-- Claim C6 (amended): on an ascending ready-chunk sequence with
non-negative durations, the chunk lookup is monotone for times below the
total duration: for `0 ≤ t1 < t2 < totalDuration` the resolved chunk index
is non-decreasing.  (Monotonicity fails when `t2` reaches the total
duration, because the lookup then falls back to the first chunk.) -/
theorem claim6_chunkAt_mono (l : List Chunk) (t1 t2 : ℚ)
    (hs : sortedByIndex l) (hn : durationsNonneg l)
    (h0 : 0 ≤ t1) (h12 : t1 < t2) (hlt : t2 < totalEpisodeDuration l) :
    ∀ c1 c2, chunkAt l t1 = some c1 → chunkAt l t2 = some c2 →
      c1.chunk_index ≤ c2.chunk_index := by
  intro c1 c2 hc1 hc2
  have h02 : (0 : ℚ) ≤ t2 := le_trans h0 (le_of_lt h12)
  obtain ⟨i2, hp2⟩ :=
    Option.isSome_iff_exists.mp (findChunkPos_isSome (l := l) h02 (by linarith))
  obtain ⟨i1, hle, hp1⟩ := findChunkPos_mono (le_of_lt h12) hp2
  have hi2 : i2 < l.length := findChunkPos_lt_length hp2
  have hi1 : i1 < l.length := findChunkPos_lt_length hp1
  rw [chunkAt_eq_get_of_pos hp1 hi1] at hc1
  rw [chunkAt_eq_get_of_pos hp2 hi2] at hc2
  injection hc1 with hc1
  injection hc2 with hc2
  subst hc1
  subst hc2
  exact sorted_get_index_mono hs hle hi2

/-- Witness for C6: durations `100, 50, 30`; `t1 = 50` resolves chunk
index 0 and `t2 = 120` resolves chunk index 1, and the theorem yields
`0 ≤ 1`. -/
theorem claim6_witness :
    (⟨0, 100, "ready"⟩ : Chunk).chunk_index ≤ (⟨1, 50, "ready"⟩ : Chunk).chunk_index :=
  claim6_chunkAt_mono [⟨0, 100, "ready"⟩, ⟨1, 50, "ready"⟩, ⟨2, 30, "ready"⟩] 50 120
    (by unfold sortedByIndex; decide)
    (by intro c hc; fin_cases hc <;> norm_num)
    (by norm_num) (by norm_num) (by norm_num [totalEpisodeDuration])
    ⟨0, 100, "ready"⟩ ⟨1, 50, "ready"⟩
    (by norm_num [chunkAt, findChunkLoop])
    (by norm_num [chunkAt, findChunkLoop])

/-- Claim C7: over any 3-chunk ready sequence with distinct indices, the
`ended` auto-advance walks the cursor through the three chunks in order;
the call made while on the last chunk reports the end of the sequence
(second component `true`, the episode-complete branch: `savePosition(100)`
and the 'Episode complete!' toast) and leaves the cursor unmoved — the
expected terminal condition, not an error path. -/
theorem claim7_advance (a b c : Chunk) (off tv : ℚ)
    (hab : a.chunk_index ≠ b.chunk_index) (hac : a.chunk_index ≠ c.chunk_index)
    (hbc : b.chunk_index ≠ c.chunk_index) :
    onEnded ⟨[a, b, c], a.chunk_index, off, tv⟩
        = (⟨[a, b, c], b.chunk_index, 0, tv⟩, false) ∧
      onEnded ⟨[a, b, c], b.chunk_index, 0, tv⟩
        = (⟨[a, b, c], c.chunk_index, 0, tv⟩, false) ∧
      onEnded ⟨[a, b, c], c.chunk_index, 0, tv⟩
        = (⟨[a, b, c], c.chunk_index, 0, tv⟩, true) := by
  have h1 : (a.chunk_index == b.chunk_index) = false := beq_eq_false_iff_ne.mpr hab
  have h2 : (a.chunk_index == c.chunk_index) = false := beq_eq_false_iff_ne.mpr hac
  have h3 : (b.chunk_index == c.chunk_index) = false := beq_eq_false_iff_ne.mpr hbc
  have h1s : (b.chunk_index == a.chunk_index) = false :=
    beq_eq_false_iff_ne.mpr (Ne.symm hab)
  have h2s : (c.chunk_index == a.chunk_index) = false :=
    beq_eq_false_iff_ne.mpr (Ne.symm hac)
  have h3s : (c.chunk_index == b.chunk_index) = false :=
    beq_eq_false_iff_ne.mpr (Ne.symm hbc)
  refine ⟨?_, ?_, ?_⟩ <;>
    simp [onEnded, findIndex, loadChunkOp, findChunk, List.find?, h1, h2, h3, h1s, h2s, h3s]

/-- Witness for C7: the concrete 3-chunk sequence with indices `0, 1, 2`
advances `0 → 1 → 2` and then completes in place. -/
theorem claim7_witness :
    onEnded ⟨[⟨0, 5, "ready"⟩, ⟨1, 6, "ready"⟩, ⟨2, 7, "ready"⟩], 0, 2, 18⟩
        = (⟨[⟨0, 5, "ready"⟩, ⟨1, 6, "ready"⟩, ⟨2, 7, "ready"⟩], 1, 0, 18⟩, false) ∧
      onEnded ⟨[⟨0, 5, "ready"⟩, ⟨1, 6, "ready"⟩, ⟨2, 7, "ready"⟩], 1, 0, 18⟩
        = (⟨[⟨0, 5, "ready"⟩, ⟨1, 6, "ready"⟩, ⟨2, 7, "ready"⟩], 2, 0, 18⟩, false) ∧
      onEnded ⟨[⟨0, 5, "ready"⟩, ⟨1, 6, "ready"⟩, ⟨2, 7, "ready"⟩], 2, 0, 18⟩
        = (⟨[⟨0, 5, "ready"⟩, ⟨1, 6, "ready"⟩, ⟨2, 7, "ready"⟩], 2, 0, 18⟩, true) :=
  claim7_advance ⟨0, 5, "ready"⟩ ⟨1, 6, "ready"⟩ ⟨2, 7, "ready"⟩ 2 18
    (by decide) (by decide) (by decide)
/-- Claim C8, counterexample to the claim as stated: a raw list whose ready
chunks arrive with indices `2, 1` is kept in source order — the load
operation filters but never sorts, so the result is NOT in ascending index
order. -/
theorem claim8_counterexample :
    readyChunks [⟨2, 1, "ready"⟩, ⟨1, 1, "ready"⟩] = [⟨2, 1, "ready"⟩, ⟨1, 1, "ready"⟩] ∧
      ¬ sortedByIndex (readyChunks [⟨2, 1, "ready"⟩, ⟨1, 1, "ready"⟩]) := by
  constructor
  · rfl
  · unfold sortedByIndex readyChunks
    decide

/-- Claim C8 (amended): the load operation keeps exactly the chunks whose
status is `ready`, in SOURCE order (a sublist of the raw list, hence
ascending by index whenever the raw list is); when no chunk is ready it
fails (reports the error and returns early), leaving the cursor, offset and
total-duration state unchanged — no progress value is computed. -/
theorem claim8_load_filter (raw : List Chunk) (s : PlayerState)
    (startChunk savedIdx : Option Nat) (pos : ℚ) :
    (∀ c, c ∈ readyChunks raw ↔ (c ∈ raw ∧ c.status = "ready")) ∧
    (readyChunks raw).Sublist raw ∧
    (sortedByIndex raw → sortedByIndex (readyChunks raw)) ∧
    (readyChunks raw = [] →
      loadEpisodeStep s raw startChunk savedIdx pos
        = ({ s with chunks := readyChunks raw }, false)) := by
  refine ⟨?_, ?_, ?_, ?_⟩
  · intro c
    simp [readyChunks, List.mem_filter]
  · exact List.filter_sublist raw
  · intro hs
    exact hs.sublist (List.filter_sublist raw)
  · intro h
    unfold loadEpisodeStep
    rw [h]
    rfl

/-- Witness for C8: a raw list with a single non-ready chunk loads as a
failure that leaves the previous cursor `7`, offset `3` and total `9`
untouched; and filtering preserves ascending order on an ascending input. -/
theorem claim8_witness :
    loadEpisodeStep ⟨[], 7, 3, 9⟩ [⟨0, 1, "pending"⟩] none none 0
        = (⟨readyChunks [⟨0, 1, "pending"⟩], 7, 3, 9⟩, false) ∧
      sortedByIndex (readyChunks [⟨0, 1, "ready"⟩, ⟨2, 1, "ready"⟩]) :=
  ⟨(claim8_load_filter [⟨0, 1, "pending"⟩] ⟨[], 7, 3, 9⟩ none none 0).2.2.2 (by rfl),
   (claim8_load_filter [⟨0, 1, "ready"⟩, ⟨2, 1, "ready"⟩] ⟨[], 0, 0, 0⟩ none none 0).2.2.1
     (by unfold sortedByIndex; decide)⟩

/-- Claim C9, counterexample to the claim as stated: one ready chunk of
index `5`; a resume request for the absent index `3` with persisted offset
`4` falls back to chunk `5` but KEEPS the offset `4` — it is not reset to
`0` (and the code reports nothing: the fallback is silent). -/
theorem claim9_counterexample :
    resumeAt [⟨5, 10, "ready"⟩] 3 4 = (5, 4) ∧
      ((5, 4) : Nat × ℚ) ≠ ((5, 0) : Nat × ℚ) := by
  constructor
  · norm_num [resumeAt, findIndex, findChunk, List.find?, clampTime, min_def, max_def]
  · norm_num

/-- Claim C9 (amended): when the requested chunk index is present in the
ascending ready sequence, the cursor afterwards holds exactly the requested
`(chunkIndex, offset)` for any offset within the chunk's duration; when it
is absent, the resume falls back to the first ready chunk but RETAINS the
requested offset (clamped by the media element to the fallback chunk's
duration) instead of resetting it to `0`, and does not fail (the fallback
is silent — no event is reported). -/
theorem claim9_resume (l : List Chunk) (ci : Nat) (off : ℚ) (hs : sortedByIndex l) :
    (∀ c, findChunk l ci = some c → 0 ≤ off → off ≤ c.duration_secs →
      resumeAt l ci off = (ci, off)) ∧
    (∀ c0 rest, l = c0 :: rest → (∀ c ∈ l, c.chunk_index ≠ ci) →
      0 ≤ off → off ≤ c0.duration_secs →
      resumeAt l ci off = (c0.chunk_index, off)) := by
  constructor
  · intro c hc h0 hle
    cases hl : l with
    | nil => rw [hl] at hc; simp [findChunk, List.find?] at hc
    | cons x rest =>
      rw [hl] at hc
      have hfi : (findIndex (fun d => d.chunk_index == ci) (x :: rest)).isSome :=
        findIndex_isSome_of_find? hc
      obtain ⟨i, hi⟩ := Option.isSome_iff_exists.mp hfi
      have hres : resumeAt (x :: rest) ci off
          = (ci,
             if off == 0 then 0
             else clampTime off
               (((findChunk (x :: rest) ci).map (·.duration_secs)).getD 0)) := by
        unfold resumeAt
        rw [hi]
      rw [hres, hc]
      by_cases hz : (off == 0) = true
      · rw [if_pos hz]
        have : off = 0 := by simpa using hz
        rw [this]
      · rw [if_neg (by simpa using hz)]
        simp only [Option.map_some', Option.getD_some]
        rw [clampTime_eq_self h0 hle]
  · intro c0 rest hl habs h0 hle
    subst hl
    have hfi : findIndex (fun d => d.chunk_index == ci) (c0 :: rest) = none :=
      findIndex_eq_none_iff.mpr
        (fun c hc => beq_eq_false_iff_ne.mpr (habs c hc))
    have hc0 : findChunk (c0 :: rest) c0.chunk_index = some c0 :=
      findChunk_sorted_mem hs (List.mem_cons_self _ _)
    have hres : resumeAt (c0 :: rest) ci off
        = (c0.chunk_index,
           if off == 0 then 0
           else clampTime off
             (((findChunk (c0 :: rest) c0.chunk_index).map (·.duration_secs)).getD 0)) := by
      unfold resumeAt
      rw [hfi]
    rw [hres, hc0]
    by_cases hz : (off == 0) = true
    · rw [if_pos hz]
      have : off = 0 := by simpa using hz
      rw [this]
    · rw [if_neg (by simpa using hz)]
      simp only [Option.map_some', Option.getD_some]
      rw [clampTime_eq_self h0 hle]

/-- Witness for C9: on the one-chunk sequence of index `5` and duration
`10`, resuming at the present index `5` with offset `4` restores exactly
`(5, 4)`, and resuming at the absent index `3` with offset `4` falls back
to `(5, 4)` — the offset survives the fallback. -/
theorem claim9_witness :
    resumeAt [⟨5, 10, "ready"⟩] 5 4 = (5, 4) ∧
      resumeAt [⟨5, 10, "ready"⟩] 3 4 = ((⟨5, 10, "ready"⟩ : Chunk).chunk_index, 4) :=
  ⟨(claim9_resume [⟨5, 10, "ready"⟩] 5 4 (by unfold sortedByIndex; decide)).1
      ⟨5, 10, "ready"⟩ (by norm_num [findChunk, List.find?]) (by norm_num) (by norm_num),
   (claim9_resume [⟨5, 10, "ready"⟩] 3 4 (by unfold sortedByIndex; decide)).2
      ⟨5, 10, "ready"⟩ [] rfl
      (by intro c hc; fin_cases hc <;> norm_num) (by norm_num) (by norm_num)⟩

/-- Claim C10: the `percent_listened` field written by `savePosition` is
capped at `100` by `Math.min(100, pct)`, for every chunk list, cursor
position, in-chunk time, duration and forced-percent argument. -/
theorem claim10_percent_capped (chunks : List Chunk) (ci : Nat)
    (currentTime duration : ℚ) (forcePct : Option ℚ) :
    savePositionPercent chunks ci currentTime duration forcePct ≤ 100 := by
  unfold savePositionPercent
  exact min_le_left _ _

end OpenVox
